import Mathlib

/-!
Verification of `extract_snpvar.py` (FineMapping-Causal-SNP).

The script merges a user variant table against a reference table of
per-SNP heritability weights.  We embed the arithmetic and control flow
of the script over exact rationals:

* the weight-rescaling block (lines 87-94 of `extract_snpvar.py`):
  `min_snpvar = df_meta[snpvar_bin].max() / args.q`, clamping every value
  strictly below `min_snpvar` up to `min_snpvar`, then multiplying the
  whole column by `snpvar_sum / snpvar_sum2`;
* the merge / missing-SNP / duplicate-check control flow
  (lines 67-132), modelled as a function from keyed row lists to an
  outcome record (main output file, side missing file, raised error).

Machine floats are modelled as exact rationals; column values are lists.
-/

namespace ExtractSnpvar

/-- Maximum of a weight column, `df_meta[snpvar_bin].max()`.  The fold
seed 0 is below every value of a positive column, so on the positive
nonempty columns the script operates on this agrees with the pandas
maximum. -/
def snpvarMax (w : List ℚ) : ℚ := w.foldr max 0

/-- Minimum of a weight column (used only to state the no-clamping
condition of the spec).  Empty column gives 0. -/
def snpvarMin : List ℚ → ℚ
  | [] => 0
  | a :: l => l.foldr min a

/-- Line 88: `min_snpvar = df_meta[snpvar_bin].max() / args.q`.
`args.q` is an integer CLI flag (default 100). -/
def min_snpvar (w : List ℚ) (q : ℕ) : ℚ := snpvarMax w / q

/-- Line 90: `df_meta.loc[df_meta[snpvar_bin] < min_snpvar, snpvar_bin]
= min_snpvar` - every value strictly below the floor is raised to it. -/
def clampColumn (w : List ℚ) (q : ℕ) : List ℚ :=
  w.map (fun x => if x < min_snpvar w q then min_snpvar w q else x)

/-- Lines 89-92: `snpvar_sum = sum` before clamping, `snpvar_sum2 = sum`
after clamping, then `df_meta[snpvar_bin] *= snpvar_sum / snpvar_sum2`.
This is the whole Weight Rescaler applied to one column. -/
def rescaleColumn (w : List ℚ) (q : ℕ) : List ℚ :=
  (clampColumn w q).map (fun x => x * (w.sum / (clampColumn w q).sum))

theorem mem_le_snpvarMax {w : List ℚ} {x : ℚ} (hx : x ∈ w) : x ≤ snpvarMax w := by
  induction w with
  | nil => cases hx
  | cons a l ih =>
      rcases List.mem_cons.mp hx with h | h
      · subst h; exact le_max_left _ _
      · exact (ih h).trans (le_max_right _ _)

theorem snpvarMax_nonneg (w : List ℚ) : 0 ≤ snpvarMax w := by
  induction w with
  | nil => exact le_refl 0
  | cons a l ih => exact ih.trans (le_max_right _ _)

theorem snpvarMax_pos {w : List ℚ} (hpos : ∀ x ∈ w, 0 < x) (hne : w ≠ []) :
    0 < snpvarMax w := by
  cases w with
  | nil => exact absurd rfl hne
  | cons a l =>
      exact lt_of_lt_of_le (hpos a (List.mem_cons_self a l)) (mem_le_snpvarMax (List.mem_cons_self a l))

theorem foldr_min_le_seed (l : List ℚ) (a : ℚ) : l.foldr min a ≤ a := by
  induction l with
  | nil => exact le_refl a
  | cons b l ih => exact (min_le_right _ _).trans ih

theorem snpvarMin_le {w : List ℚ} {x : ℚ} (hx : x ∈ w) : snpvarMin w ≤ x := by
  cases w with
  | nil => cases hx
  | cons a l =>
      show l.foldr min a ≤ x
      rcases List.mem_cons.mp hx with h | h
      · subst h; exact foldr_min_le_seed l x
      · clear hx
        induction l with
        | nil => cases h
        | cons b l ih =>
            rcases List.mem_cons.mp h with hb | hb
            · subst hb; exact min_le_left _ _
            · exact (min_le_right _ _).trans (ih hb)

theorem snpvarMin_pos {w : List ℚ} (hpos : ∀ x ∈ w, 0 < x) (hne : w ≠ []) :
    0 < snpvarMin w := by
  cases w with
  | nil => exact absurd rfl hne
  | cons a l =>
      show 0 < l.foldr min a
      have ha : 0 < a := hpos a (List.mem_cons_self a l)
      have hl : ∀ x ∈ l, 0 < x := fun x hx => hpos x (List.mem_cons_of_mem a hx)
      clear hne hpos
      induction l with
      | nil => exact ha
      | cons b l ih =>
          exact lt_min (hl b (List.mem_cons_self b l))
            (ih (fun x hx => hl x (List.mem_cons_of_mem b hx)))

theorem sum_map_le {l : List ℚ} {f : ℚ → ℚ} (h : ∀ x ∈ l, x ≤ f x) :
    l.sum ≤ (l.map f).sum := by
  induction l with
  | nil => exact le_refl 0
  | cons a l ih =>
      simp only [List.map_cons, List.sum_cons]
      exact add_le_add (h a (List.mem_cons_self a l))
        (ih (fun x hx => h x (List.mem_cons_of_mem a hx)))

theorem le_clamp (w : List ℚ) (q : ℕ) (x : ℚ) :
    x ≤ (if x < min_snpvar w q then min_snpvar w q else x) := by
  split
  · exact le_of_lt (by assumption)
  · exact le_refl x

theorem sum_le_clampColumn (w : List ℚ) (q : ℕ) : w.sum ≤ (clampColumn w q).sum :=
  sum_map_le (fun x _ => le_clamp w q x)

theorem sum_pos_of_pos {w : List ℚ} (hpos : ∀ x ∈ w, 0 < x) (hne : w ≠ []) :
    0 < w.sum :=
  List.sum_pos w hpos hne

theorem clampColumn_sum_pos {w : List ℚ} (q : ℕ) (hpos : ∀ x ∈ w, 0 < x)
    (hne : w ≠ []) : 0 < (clampColumn w q).sum :=
  lt_of_lt_of_le (sum_pos_of_pos hpos hne) (sum_le_clampColumn w q)

theorem sum_map_mul_factor (l : List ℚ) (c : ℚ) :
    (l.map (fun x => x * c)).sum = l.sum * c := by
  induction l with
  | nil => simp
  | cons a l ih => simp [ih, add_mul]

theorem rescaleColumn_sum {w : List ℚ} (q : ℕ) (hpos : ∀ x ∈ w, 0 < x)
    (hne : w ≠ []) : (rescaleColumn w q).sum = w.sum := by
  have h2 : (clampColumn w q).sum ≠ 0 := ne_of_gt (clampColumn_sum_pos q hpos hne)
  unfold rescaleColumn
  rw [sum_map_mul_factor]
  field_simp

theorem min_snpvar_le_mem_clamp {w : List ℚ} {q : ℕ} {c : ℚ}
    (hc : c ∈ clampColumn w q) : min_snpvar w q ≤ c := by
  obtain ⟨x, _, rfl⟩ := List.mem_map.mp hc
  by_cases h : x < min_snpvar w q
  · rw [if_pos h]
  · rw [if_neg h]
    exact not_lt.mp h

theorem mem_clamp_le_max {w : List ℚ} {q : ℕ} (hq1 : 1 ≤ q) {c : ℚ}
    (hc : c ∈ clampColumn w q) : c ≤ snpvarMax w := by
  obtain ⟨x, hx, rfl⟩ := List.mem_map.mp hc
  by_cases h : x < min_snpvar w q
  · rw [if_pos h]
    exact div_le_self (snpvarMax_nonneg w) (by exact_mod_cast hq1)
  · rw [if_neg h]
    exact mem_le_snpvarMax hx

theorem min_snpvar_nonneg (w : List ℚ) (q : ℕ) : 0 ≤ min_snpvar w q :=
  div_nonneg (snpvarMax_nonneg w) (Nat.cast_nonneg q)

/-- Claim C1: for every reference weight column of positive values and
every q > 0, the Weight Rescaler preserves the total sum of the column
exactly under exact arithmetic, hence well within the relative tolerance
1e-6 stated by the spec. -/
theorem rescaleColumn_preserves_sum (w : List ℚ) (q : ℕ)
    (hpos : ∀ x ∈ w, 0 < x) (hne : w ≠ []) (hq : 0 < q) :
    (rescaleColumn w q).sum = w.sum ∧
    |(rescaleColumn w q).sum - w.sum| / w.sum < 1 / 1000000 := by
  have h := rescaleColumn_sum q hpos hne
  refine ⟨h, ?_⟩
  rw [h, sub_self, abs_zero, zero_div]
  norm_num

theorem rescaleColumn_preserves_sum_witness :
    (∀ x ∈ ([1, 2] : List ℚ), 0 < x) ∧
    (rescaleColumn [1, 2] 2).sum = ([1, 2] : List ℚ).sum := by
  refine ⟨by decide, ?_⟩
  exact (rescaleColumn_preserves_sum [1, 2] 2 (by decide) (by decide) (by decide)).1

theorem clampColumn_q_one {w : List ℚ} : clampColumn w 1 = w.map (fun _ => snpvarMax w) := by
  unfold clampColumn
  apply List.map_congr_left
  intro x hx
  have hle : x ≤ snpvarMax w := mem_le_snpvarMax hx
  have hm : min_snpvar w 1 = snpvarMax w := by simp [min_snpvar]
  rw [hm]
  by_cases h : x < snpvarMax w
  · rw [if_pos h]
  · rw [if_neg h]
    exact le_antisymm hle (not_lt.mp h)

theorem sum_map_const (l : List ℚ) (c : ℚ) :
    (l.map (fun _ => c)).sum = l.length * c := by
  induction l with
  | nil => simp
  | cons a l ih =>
      simp only [List.map_cons, List.sum_cons, List.length_cons, ih]
      push_cast
      ring

/-- Claim C7: with q = 1 the Weight Rescaler makes every weight equal
(each becomes the column mean, i.e. all values are clamped to the
maximum and then uniformly rescaled) while the column sum is
preserved. -/
theorem rescaleColumn_q_one_uniform (w : List ℚ)
    (hpos : ∀ x ∈ w, 0 < x) (hne : w ≠ []) :
    (∀ x ∈ rescaleColumn w 1, x = w.sum / w.length) ∧
    (rescaleColumn w 1).sum = w.sum := by
  refine ⟨?_, rescaleColumn_sum 1 hpos hne⟩
  intro x hx
  unfold rescaleColumn at hx
  rw [clampColumn_q_one] at hx
  obtain ⟨c, hc, rfl⟩ := List.mem_map.mp hx
  obtain ⟨y, hy, rfl⟩ := List.mem_map.mp hc
  rw [sum_map_const]
  have hm : 0 < snpvarMax w := snpvarMax_pos hpos hne
  have hn : (0:ℚ) < w.length := by
    have : 0 < w.length := List.length_pos.mpr hne
    exact_mod_cast this
  field_simp
  ring

theorem rescaleColumn_q_one_uniform_witness :
    (∀ x ∈ ([1, 3] : List ℚ), 0 < x) ∧
    (∀ x ∈ rescaleColumn [1, 3] 1, x = ([1, 3] : List ℚ).sum / ([1, 3] : List ℚ).length) ∧
    (rescaleColumn [1, 3] 1).sum = ([1, 3] : List ℚ).sum := by
  refine ⟨by decide, ?_⟩
  exact rescaleColumn_q_one_uniform [1, 3] (by decide) (by decide)

theorem snpvarMin_le_snpvarMax {w : List ℚ} (hpos : ∀ x ∈ w, 0 < x) (hne : w ≠ []) :
    snpvarMin w ≤ snpvarMax w := by
  cases w with
  | nil => exact absurd rfl hne
  | cons a l =>
      exact (snpvarMin_le (List.mem_cons_self a l)).trans
        (mem_le_snpvarMax (List.mem_cons_self a l))

/-- Claim C8: if q is at least max(weights)/min(weights) then the Weight
Rescaler is the identity: no value is clamped, the rescale factor is 1,
and every weight is unchanged. -/
theorem rescaleColumn_identity_of_large_q (w : List ℚ) (q : ℕ)
    (hpos : ∀ x ∈ w, 0 < x) (hne : w ≠ [])
    (hq : snpvarMax w / snpvarMin w ≤ q) :
    clampColumn w q = w ∧
    w.sum / (clampColumn w q).sum = 1 ∧
    rescaleColumn w q = w := by
  have hmn : 0 < snpvarMin w := snpvarMin_pos hpos hne
  have hq0 : (0:ℚ) < q := by
    have h1 : (1:ℚ) ≤ snpvarMax w / snpvarMin w :=
      (one_le_div hmn).mpr (snpvarMin_le_snpvarMax hpos hne)
    linarith
  have hminv : min_snpvar w q ≤ snpvarMin w := by
    unfold min_snpvar
    rw [div_le_iff hq0]
    have := (div_le_iff hmn).mp hq
    linarith
  have hclamp : clampColumn w q = w := by
    unfold clampColumn
    have hpt : ∀ x ∈ w, (if x < min_snpvar w q then min_snpvar w q else x) = id x := by
      intro x hx
      rw [if_neg (not_lt.mpr (hminv.trans (snpvarMin_le hx)))]
      rfl
    rw [List.map_congr_left hpt, List.map_id]
  have hs : 0 < w.sum := sum_pos_of_pos hpos hne
  have hfac : w.sum / (clampColumn w q).sum = 1 := by
    rw [hclamp]
    exact div_self (ne_of_gt hs)
  refine ⟨hclamp, hfac, ?_⟩
  unfold rescaleColumn
  rw [hclamp]
  simp [div_self (ne_of_gt hs)]

theorem rescaleColumn_identity_of_large_q_witness :
    (∀ x ∈ ([1, 3] : List ℚ), 0 < x) ∧
    snpvarMax [1, 3] / snpvarMin [1, 3] ≤ ((5 : ℕ) : ℚ) ∧
    rescaleColumn [1, 3] 5 = [1, 3] := by
  refine ⟨by decide, by norm_num [snpvarMax, snpvarMin], ?_⟩
  exact (rescaleColumn_identity_of_large_q [1, 3] 5 (by decide) (by decide)
    (by norm_num [snpvarMax, snpvarMin])).2.2

theorem factor_pos {w : List ℚ} (q : ℕ) (hpos : ∀ x ∈ w, 0 < x) (hne : w ≠ []) :
    0 < w.sum / (clampColumn w q).sum :=
  div_pos (sum_pos_of_pos hpos hne) (clampColumn_sum_pos q hpos hne)

/-- Claim C9: for every column of positive weights and every positive
integer q, after the Weight Rescaler runs the ratio between the largest
and the smallest weight is at most q; stated pointwise as x being at
most q times y for any two rescaled values x and y. -/
theorem rescaleColumn_ratio_le_q (w : List ℚ) (q : ℕ)
    (hpos : ∀ x ∈ w, 0 < x) (hne : w ≠ []) (hq : 0 < q) :
    ∀ x ∈ rescaleColumn w q, ∀ y ∈ rescaleColumn w q, x ≤ q * y := by
  intro x hx y hy
  obtain ⟨cx, hcx, rfl⟩ := List.mem_map.mp hx
  obtain ⟨cy, hcy, rfl⟩ := List.mem_map.mp hy
  have hf : 0 < w.sum / (clampColumn w q).sum := factor_pos q hpos hne
  have hq0 : (0:ℚ) < q := by exact_mod_cast hq
  have hqm : (q : ℚ) * min_snpvar w q = snpvarMax w := by
    unfold min_snpvar
    field_simp
  calc cx * (w.sum / (clampColumn w q).sum)
      ≤ snpvarMax w * (w.sum / (clampColumn w q).sum) :=
        mul_le_mul_of_nonneg_right (mem_clamp_le_max hq hcx) hf.le
    _ = (q : ℚ) * (min_snpvar w q * (w.sum / (clampColumn w q).sum)) := by
        rw [← hqm]; ring
    _ ≤ (q : ℚ) * (cy * (w.sum / (clampColumn w q).sum)) := by
        exact mul_le_mul_of_nonneg_left
          (mul_le_mul_of_nonneg_right (min_snpvar_le_mem_clamp hcy) hf.le) hq0.le

theorem rescaleColumn_ratio_le_q_witness :
    (∀ x ∈ ([1, 8] : List ℚ), 0 < x) ∧
    (∀ x ∈ rescaleColumn [1, 8] 4, ∀ y ∈ rescaleColumn [1, 8] 4, x ≤ (4:ℕ) * y) := by
  exact ⟨by decide, rescaleColumn_ratio_le_q [1, 8] 4 (by decide) (by decide) (by decide)⟩

theorem map_eq_self_of_le_of_sum_le {l : List ℚ} {f : ℚ → ℚ}
    (hle : ∀ x ∈ l, x ≤ f x) (hsum : (l.map f).sum ≤ l.sum) : l.map f = l := by
  induction l with
  | nil => rfl
  | cons a l ih =>
      simp only [List.map_cons, List.sum_cons] at hsum ⊢
      have h1 : a ≤ f a := hle a (List.mem_cons_self a l)
      have h2 : l.sum ≤ (l.map f).sum :=
        sum_map_le (fun x hx => hle x (List.mem_cons_of_mem a hx))
      have hfa : f a = a := le_antisymm (by linarith) h1
      have h3 : (l.map f).sum ≤ l.sum := by linarith
      rw [hfa, ih (fun x hx => hle x (List.mem_cons_of_mem a hx)) h3]

/-- Claim C10: the final multiplicative factor `snpvar_sum / snpvar_sum2`
is at most 1 (clamping never decreases the sum), no rescaled weight
exceeds the original column maximum, and the factor equals 1 exactly
when no value was clamped (i.e. the clamped column equals the
original). -/
theorem rescaleColumn_factor_le_one (w : List ℚ) (q : ℕ)
    (hpos : ∀ x ∈ w, 0 < x) (hne : w ≠ []) (hq : 0 < q) :
    w.sum / (clampColumn w q).sum ≤ 1 ∧
    (∀ x ∈ rescaleColumn w q, x ≤ snpvarMax w) ∧
    (w.sum / (clampColumn w q).sum = 1 ↔ clampColumn w q = w) := by
  have hs : 0 < w.sum := sum_pos_of_pos hpos hne
  have hs2 : 0 < (clampColumn w q).sum := clampColumn_sum_pos q hpos hne
  have hle : w.sum ≤ (clampColumn w q).sum := sum_le_clampColumn w q
  have hf1 : w.sum / (clampColumn w q).sum ≤ 1 := (div_le_one hs2).mpr hle
  refine ⟨hf1, ?_, ?_⟩
  · intro x hx
    obtain ⟨c, hc, rfl⟩ := List.mem_map.mp hx
    have h0 : 0 ≤ c := (min_snpvar_nonneg w q).trans (min_snpvar_le_mem_clamp hc)
    calc c * (w.sum / (clampColumn w q).sum) ≤ c * 1 :=
          mul_le_mul_of_nonneg_left hf1 h0
      _ = c := mul_one c
      _ ≤ snpvarMax w := mem_clamp_le_max hq hc
  · constructor
    · intro hfe
      have heq : w.sum = (clampColumn w q).sum := by
        have := (div_eq_one_iff_eq (ne_of_gt hs2)).mp hfe
        exact this
      exact map_eq_self_of_le_of_sum_le (fun x _ => le_clamp w q x) (le_of_eq heq.symm)
    · intro hce
      rw [hce]
      exact div_self (ne_of_gt hs)

theorem rescaleColumn_factor_le_one_witness :
    (∀ x ∈ ([1, 8] : List ℚ), 0 < x) ∧
    ([1, 8] : List ℚ).sum / (clampColumn [1, 8] 4).sum ≤ 1 := by
  exact ⟨by decide, (rescaleColumn_factor_le_one [1, 8] 4 (by decide) (by decide) (by decide)).1⟩

/-- Claim C2 fails as stated: with the column [1/1000, 1] and q = 1 every
clamped value equals the maximum 1, the rescale factor is 1001/2000, and
both rescaled values are 1001/2000, which is below max(original)/q = 1 by
almost one half - far more than any floating error.  The theorem refutes
the claim even after granting a tolerance of 1/4. -/
theorem rescaleColumn_lower_bound_cex :
    ¬ (∀ x ∈ rescaleColumn [1/1000, 1] 1, min_snpvar [1/1000, 1] 1 - 1/4 ≤ x) := by
  intro h
  have hm : (1001/2000 : ℚ) ∈ rescaleColumn [1/1000, 1] 1 := by
    norm_num [rescaleColumn, clampColumn, min_snpvar, snpvarMax]
  have := h (1001/2000) hm
  norm_num [min_snpvar, snpvarMax] at this

/-- Claim C2 amended: after the clamping step every value is at least
max(original)/q, and after the sum-preserving multiplication every value
is at least max(original)/q times the rescale factor
original_sum/clamped_sum (which can be strictly below max(original)/q
when clamping occurred, not merely by floating error). -/
theorem rescaleColumn_lower_bound (w : List ℚ) (q : ℕ)
    (hpos : ∀ x ∈ w, 0 < x) (hne : w ≠ []) (hq : 0 < q) :
    (∀ c ∈ clampColumn w q, min_snpvar w q ≤ c) ∧
    (∀ x ∈ rescaleColumn w q,
      min_snpvar w q * (w.sum / (clampColumn w q).sum) ≤ x) := by
  refine ⟨fun c hc => min_snpvar_le_mem_clamp hc, ?_⟩
  intro x hx
  obtain ⟨c, hc, rfl⟩ := List.mem_map.mp hx
  exact mul_le_mul_of_nonneg_right (min_snpvar_le_mem_clamp hc)
    (factor_pos q hpos hne).le

theorem rescaleColumn_lower_bound_witness :
    (∀ x ∈ ([1, 8] : List ℚ), 0 < x) ∧
    (∀ x ∈ rescaleColumn [1, 8] 4,
      min_snpvar [1, 8] 4 * (([1, 8] : List ℚ).sum / (clampColumn [1, 8] 4).sum) ≤ x) := by
  exact ⟨by decide, (rescaleColumn_lower_bound [1, 8] 4 (by decide) (by decide) (by decide)).2⟩

/-- Modelled from the spec: the canonical-key function `set_snpid_index`
is imported from `polyfun_utils`, which is not part of this
repository's source tree; per the spec (section 3 and 4.2) the canonical
key of a row is (chromosome, position, sorted allele pair), so that the
key is independent of the order of the two alleles. -/
def set_snpid_index (chr bp : ℕ) (a1 a2 : String) : ℕ × ℕ × String × String :=
  (chr, bp, min a1 a2, max a1 a2)

/-- Claim C3: the canonical key computed by the Key Normalizer is
invariant under swapping the two allele columns A1 and A2. -/
theorem set_snpid_index_swap (chr bp : ℕ) (a1 a2 : String) :
    set_snpid_index chr bp a1 a2 = set_snpid_index chr bp a2 a1 := by
  simp [set_snpid_index, min_comm, max_comm]

/-- Errors raised by the script: line 72 and line 125 raise the
duplicate-SNPs ValueError, line 116 raises the missing-SNPs
ValueError. -/
inductive ExtractError where
  | duplicateSNPs : ExtractError
  | notAllSNPsFound : ExtractError
  deriving DecidableEq

/-- Observable outcome of one run of the script: the main output file
(line 127-132, written only if no error was raised), the side missing
file (line 111, written before the potential missing-SNPs raise), and
the raised error, if any. -/
structure RunOutcome (K α : Type) where
  outFile : Option (List (K × ℚ × α))
  missFile : Option (List (K × α))
  err : Option ExtractError
  deriving DecidableEq

variable {K : Type} [DecidableEq K] {α β : Type}

/-- Membership of a key in the index of a keyed table,
`index.isin(other.index)` for one key. -/
def keyIn (k : K) (l : List (K × β)) : Bool := decide (k ∈ l.map Prod.fst)

/-- Lines 88-92 applied to the reference table: the snpvar_bin column of
df_meta is clamped and rescaled in place, keys untouched. -/
def rescaleMeta (meta : List (K × ℚ)) (q : ℕ) : List (K × ℚ) :=
  meta.map (fun r =>
    (r.1,
      (if r.2 < min_snpvar (meta.map Prod.snd) q then min_snpvar (meta.map Prod.snd) q
       else r.2)
        * ((meta.map Prod.snd).sum / (clampColumn (meta.map Prod.snd) q).sum)))

theorem rescaleMeta_fst (meta : List (K × ℚ)) (q : ℕ) :
    (rescaleMeta meta q).map Prod.fst = meta.map Prod.fst := by
  simp [rescaleMeta, List.map_map]

/-- Line 104: `df_meta = df_meta.loc[df_meta.index.isin(df_snps.index)]`. -/
def metaFiltered (snps : List (K × α)) (meta : List (K × ℚ)) (q : ℕ) : List (K × ℚ) :=
  (rescaleMeta meta q).filter (fun m => keyIn m.1 snps)

/-- Line 105: inner join of the filtered reference table with the user
table on the canonical-key index; every reference row is paired with
every user row carrying the same key. -/
def mergedRows (snps : List (K × α)) (meta : List (K × ℚ)) (q : ℕ) : List (K × ℚ × α) :=
  (metaFiltered snps meta q).flatMap
    (fun m => (snps.filter (fun s => decide (s.1 = m.1))).map (fun s => (m.1, m.2, s.2)))

/-- Line 110: `df_snps.loc[~df_snps.index.isin(df_meta.index)]` with
df_meta already filtered. -/
def missingRows (snps : List (K × α)) (meta : List (K × ℚ)) (q : ℕ) : List (K × α) :=
  snps.filter (fun s => !(keyIn s.1 (metaFiltered snps meta q)))

/-- Control flow of lines 67-132 of `extract_snpvar.py`: duplicate check
on the user table (71-72), rescale (87-94), filter and merge (104-105),
missing-SNPs handling (109-116), duplicate check on the output (123-125)
and final write (127-132).  Column-name collision (97-99) concerns
pandas column labels, which the keyed-row embedding leaves opaque. -/
def runExtract (snps : List (K × α)) (meta : List (K × ℚ)) (allowMissing : Bool)
    (q : ℕ) : RunOutcome K α :=
  if (snps.map Prod.fst).Nodup then
    if (mergedRows snps meta q).length < snps.length then
      if allowMissing then
        if ((mergedRows snps meta q).map Prod.fst).Nodup then
          ⟨some (mergedRows snps meta q), some (missingRows snps meta q), none⟩
        else
          ⟨none, some (missingRows snps meta q), some ExtractError.duplicateSNPs⟩
      else
        ⟨none, some (missingRows snps meta q), some ExtractError.notAllSNPsFound⟩
    else
      if ((mergedRows snps meta q).map Prod.fst).Nodup then
        ⟨some (mergedRows snps meta q), none, none⟩
      else
        ⟨none, none, some ExtractError.duplicateSNPs⟩
  else
    ⟨none, none, some ExtractError.duplicateSNPs⟩

theorem keyIn_iff {k : K} {l : List (K × β)} :
    keyIn k l = true ↔ k ∈ l.map Prod.fst := by
  simp [keyIn]

/-- Number of rows of a keyed table carrying a given key. -/
def countKey (k : K) (l : List (K × β)) : ℕ :=
  l.countP (fun r => decide (r.1 = k))

theorem countP_or_disjoint {γ : Type} (l : List γ) (p q : γ → Bool)
    (h : ∀ a, p a = true → q a = false) :
    l.countP (fun a => p a || q a) = l.countP p + l.countP q := by
  induction l with
  | nil => simp
  | cons a l ih =>
      by_cases hp : p a = true
      · have hq : q a = false := h a hp
        simp [List.countP_cons, hp, hq, ih]
        omega
      · have hp' : p a = false := Bool.eq_false_iff.mpr hp
        by_cases hq : q a = true
        · simp [List.countP_cons, hp', hq, ih]
          omega
        · have hq' : q a = false := Bool.eq_false_iff.mpr hq
          simp [List.countP_cons, hp', hq', ih]

theorem countP_mem_eq_sum (ks L : List K) (hnd : ks.Nodup) :
    L.countP (fun x => decide (x ∈ ks)) =
      (ks.map (fun k => L.countP (fun x => decide (x = k)))).sum := by
  induction ks with
  | nil => simp
  | cons k ks ih =>
      obtain ⟨hk, hnd'⟩ := List.nodup_cons.mp hnd
      have hcongr : (fun x => decide (x ∈ k :: ks)) =
          (fun x => decide (x = k) || decide (x ∈ ks)) := by
        funext x
        simp [List.mem_cons]
      rw [hcongr, countP_or_disjoint L _ _ ?_, List.map_cons, List.sum_cons, ih hnd']
      intro x hx
      have hxk : x = k := of_decide_eq_true hx
      subst hxk
      exact decide_eq_false hk

theorem length_le_sum_of_ge_one (ns : List ℕ) (h1 : ∀ x ∈ ns, 1 ≤ x) :
    ns.length ≤ ns.sum := by
  induction ns with
  | nil => exact le_refl 0
  | cons a l ih =>
      have := ih (fun x hx => h1 x (List.mem_cons_of_mem a hx))
      have := h1 a (List.mem_cons_self a l)
      simp only [List.length_cons, List.sum_cons]
      omega

theorem length_succ_le_sum (ns : List ℕ) (h1 : ∀ x ∈ ns, 1 ≤ x)
    (x : ℕ) (hx : x ∈ ns) (h2 : 2 ≤ x) : ns.length + 1 ≤ ns.sum := by
  induction ns with
  | nil => cases hx
  | cons a l ih =>
      simp only [List.length_cons, List.sum_cons]
      rcases List.mem_cons.mp hx with h | h
      · have hl := length_le_sum_of_ge_one l (fun y hy => h1 y (List.mem_cons_of_mem a hy))
        omega
      · have := ih (fun y hy => h1 y (List.mem_cons_of_mem a hy)) h
        have ha := h1 a (List.mem_cons_self a l)
        omega

theorem nodup_countP_le_one (L : List K) (h : L.Nodup) (k : K) :
    L.countP (fun x => decide (x = k)) ≤ 1 := by
  induction L with
  | nil => simp
  | cons a l ih =>
      obtain ⟨ha, hnd⟩ := List.nodup_cons.mp h
      by_cases hk : a = k
      · subst hk
        have hz : l.countP (fun x => decide (x = a)) = 0 :=
          List.countP_eq_zero.mpr (fun x hx hdx => ha (of_decide_eq_true hdx ▸ hx))
        simp [List.countP_cons, hz]
      · simp [List.countP_cons, hk, ih hnd]

theorem filter_key_singleton {snps : List (K × α)}
    (hnd : (snps.map Prod.fst).Nodup) {k : K} (hk : k ∈ snps.map Prod.fst) :
    ∃ s : K × α, s ∈ snps ∧ s.1 = k ∧
      snps.filter (fun s => decide (s.1 = k)) = [s] := by
  induction snps with
  | nil => cases hk
  | cons a l ih =>
      simp only [List.map_cons, List.nodup_cons] at hnd
      obtain ⟨ha, hnd'⟩ := hnd
      rcases List.mem_cons.mp hk with h | h
      · refine ⟨a, List.mem_cons_self a l, h.symm, ?_⟩
        have hfl : l.filter (fun s => decide (s.1 = k)) = [] := by
          apply List.filter_eq_nil_iff.mpr
          intro s hs hds
          exact ha (h ▸ (of_decide_eq_true hds) ▸ List.mem_map_of_mem Prod.fst hs)
        simp [List.filter_cons, h.symm, hfl]
      · have hak : a.1 ≠ k := by
          intro he
          exact ha (he ▸ h)
        obtain ⟨s, hs, hsk, heq⟩ := ih hnd' h
        refine ⟨s, List.mem_cons_of_mem a hs, hsk, ?_⟩
        simp [List.filter_cons, hak, heq]

theorem flatMap_fst_of_single {F : List (K × ℚ)} {g : (K × ℚ) → List (K × ℚ × α)}
    (h : ∀ m ∈ F, (g m).map Prod.fst = [m.1]) :
    (F.flatMap g).map Prod.fst = F.map Prod.fst := by
  induction F with
  | nil => rfl
  | cons a F ih =>
      rw [List.flatMap_cons, List.map_append, h a (List.mem_cons_self a F),
        ih (fun m hm => h m (List.mem_cons_of_mem a hm)), List.map_cons]
      rfl

theorem mem_map_fst_filter {l : List (K × β)} {pb : K → Bool} {k : K} :
    k ∈ (l.filter (fun r => pb r.1)).map Prod.fst ↔
      k ∈ l.map Prod.fst ∧ pb k = true := by
  constructor
  · intro h
    obtain ⟨r, hrf, hk⟩ := List.mem_map.mp h
    obtain ⟨hrl, hpr⟩ := List.mem_filter.mp hrf
    exact ⟨hk ▸ List.mem_map_of_mem Prod.fst hrl, hk ▸ hpr⟩
  · rintro ⟨hkl, hpk⟩
    obtain ⟨r, hr, hk⟩ := List.mem_map.mp hkl
    exact List.mem_map.mpr ⟨r, List.mem_filter.mpr ⟨hr, by rw [hk]; exact hpk⟩, hk⟩

theorem mem_metaFiltered_fst {snps : List (K × α)} {meta : List (K × ℚ)} {q : ℕ}
    {k : K} :
    k ∈ (metaFiltered snps meta q).map Prod.fst ↔
      k ∈ meta.map Prod.fst ∧ k ∈ snps.map Prod.fst := by
  unfold metaFiltered
  constructor
  · intro h
    obtain ⟨m, hmf, hk⟩ := List.mem_map.mp h
    obtain ⟨hml, hpm⟩ := List.mem_filter.mp hmf
    have h1 : k ∈ (rescaleMeta meta q).map Prod.fst :=
      hk ▸ List.mem_map_of_mem Prod.fst hml
    rw [rescaleMeta_fst] at h1
    exact ⟨h1, hk ▸ keyIn_iff.mp hpm⟩
  · rintro ⟨h1, h2⟩
    rw [← rescaleMeta_fst meta q] at h1
    obtain ⟨m, hm, hk⟩ := List.mem_map.mp h1
    refine List.mem_map.mpr ⟨m, List.mem_filter.mpr ⟨hm, ?_⟩, hk⟩
    exact keyIn_iff.mpr (by rw [hk]; exact h2)

theorem mergedRows_fst {snps : List (K × α)} {meta : List (K × ℚ)} {q : ℕ}
    (hnd : (snps.map Prod.fst).Nodup) :
    (mergedRows snps meta q).map Prod.fst = (metaFiltered snps meta q).map Prod.fst := by
  unfold mergedRows
  apply flatMap_fst_of_single
  intro m hm
  have hmk : m.1 ∈ snps.map Prod.fst :=
    (mem_metaFiltered_fst.mp (List.mem_map_of_mem Prod.fst hm)).2
  obtain ⟨s, _, _, heq⟩ := filter_key_singleton hnd hmk
  rw [heq]
  rfl

theorem mergedRows_length {snps : List (K × α)} {meta : List (K × ℚ)} {q : ℕ}
    (hnd : (snps.map Prod.fst).Nodup) :
    (mergedRows snps meta q).length = (metaFiltered snps meta q).length := by
  rw [← List.length_map (mergedRows snps meta q) Prod.fst, mergedRows_fst hnd,
    List.length_map]

theorem missingRows_eq {snps : List (K × α)} {meta : List (K × ℚ)} {q : ℕ} :
    missingRows snps meta q = snps.filter (fun s => !(keyIn s.1 meta)) := by
  unfold missingRows
  apply List.filter_congr
  intro s hs
  congr 1
  unfold keyIn
  apply decide_eq_decide.mpr
  rw [mem_metaFiltered_fst]
  constructor
  · exact fun h => h.1
  · exact fun h => ⟨h, List.mem_map_of_mem Prod.fst hs⟩

theorem metaFiltered_fst_nodup {snps : List (K × α)} {meta : List (K × ℚ)} {q : ℕ}
    (hndm : (meta.map Prod.fst).Nodup) :
    ((metaFiltered snps meta q).map Prod.fst).Nodup := by
  have hsub : List.Sublist ((metaFiltered snps meta q).map Prod.fst)
      ((rescaleMeta meta q).map Prod.fst) :=
    (List.filter_sublist (rescaleMeta meta q)).map Prod.fst
  rw [rescaleMeta_fst] at hsub
  exact hndm.sublist hsub

theorem metaFiltered_length_lt {snps : List (K × α)} {meta : List (K × ℚ)} {q : ℕ}
    (hnd : (snps.map Prod.fst).Nodup)
    (hFnd : ((metaFiltered snps meta q).map Prod.fst).Nodup)
    {k₀ : K} (hk₀s : k₀ ∈ snps.map Prod.fst) (hk₀m : k₀ ∉ meta.map Prod.fst) :
    (metaFiltered snps meta q).length < snps.length := by
  have hsub : (metaFiltered snps meta q).map Prod.fst ⊆ (snps.map Prod.fst).erase k₀ := by
    intro x hx
    obtain ⟨hxm, hxs⟩ := mem_metaFiltered_fst.mp hx
    have hxk : x ≠ k₀ := fun he => hk₀m (he ▸ hxm)
    exact (List.mem_erase_of_ne hxk).mpr hxs
  have hlen : ((metaFiltered snps meta q).map Prod.fst).length ≤
      ((snps.map Prod.fst).erase k₀).length :=
    (hFnd.subperm hsub).length_le
  rw [List.length_erase_of_mem hk₀s] at hlen
  have hpos : 0 < (snps.map Prod.fst).length :=
    List.length_pos.mpr (List.ne_nil_of_mem hk₀s)
  rw [List.length_map] at hlen hpos
  rw [← List.length_map (metaFiltered snps meta q) Prod.fst]
  rw [List.length_map] at hlen ⊢
  omega

theorem metaFiltered_length_eq_countP {snps : List (K × α)} {meta : List (K × ℚ)}
    {q : ℕ} :
    (metaFiltered snps meta q).length =
      (meta.map Prod.fst).countP (fun x => decide (x ∈ snps.map Prod.fst)) := by
  unfold metaFiltered
  rw [← List.countP_eq_length_filter]
  rw [← rescaleMeta_fst meta q, List.countP_map]
  rfl

theorem metaFiltered_length_ge {snps : List (K × α)} {meta : List (K × ℚ)} {q : ℕ}
    (hnd : (snps.map Prod.fst).Nodup)
    (hall : ∀ k ∈ snps.map Prod.fst, k ∈ meta.map Prod.fst)
    {k₀ : K} (hk₀ : k₀ ∈ snps.map Prod.fst)
    (hdup : 2 ≤ (meta.map Prod.fst).countP (fun x => decide (x = k₀))) :
    snps.length + 1 ≤ (metaFiltered snps meta q).length := by
  rw [metaFiltered_length_eq_countP,
    countP_mem_eq_sum (snps.map Prod.fst) (meta.map Prod.fst) hnd]
  have hlen : snps.length =
      ((snps.map Prod.fst).map
        (fun k => (meta.map Prod.fst).countP (fun x => decide (x = k)))).length := by
    rw [List.length_map, List.length_map]
  rw [hlen]
  apply length_succ_le_sum
  · intro x hx
    obtain ⟨k, hk, hke⟩ := List.mem_map.mp hx
    have : 0 < (meta.map Prod.fst).countP (fun x => decide (x = k)) :=
      List.countP_pos_iff.mpr ⟨k, hall k hk, decide_eq_true rfl⟩
    omega
  · exact List.mem_map_of_mem _ hk₀
  · exact hdup

/-- Claim C4: if at least one user-table row's canonical key is absent
from the reference table and allow-missing is unset, the run aborts with
an error (a raised ValueError, hence nonzero exit status) and the main
output file is not produced.  (The side missing file may still be
written before the raise, as at line 111 of the script.) -/
theorem runExtract_missing_aborts (snps : List (K × α)) (meta : List (K × ℚ))
    (q : ℕ) (k₀ : K) (hk₀s : k₀ ∈ snps.map Prod.fst)
    (hk₀m : k₀ ∉ meta.map Prod.fst) :
    (runExtract snps meta false q).err.isSome = true ∧
    (runExtract snps meta false q).outFile = none := by
  unfold runExtract
  by_cases hnd : (snps.map Prod.fst).Nodup
  · rw [if_pos hnd]
    by_cases hlen : (mergedRows snps meta q).length < snps.length
    · rw [if_pos hlen, if_neg (by simp : ¬ (false = true))]
      exact ⟨rfl, rfl⟩
    · rw [if_neg hlen]
      have hd : ¬ ((mergedRows snps meta q).map Prod.fst).Nodup := by
        intro hF
        rw [mergedRows_fst hnd] at hF
        have hlt := metaFiltered_length_lt hnd hF hk₀s hk₀m
        have hleq : (mergedRows snps meta q).length = (metaFiltered snps meta q).length :=
          mergedRows_length hnd
        omega
      rw [if_neg hd]
      exact ⟨rfl, rfl⟩
  · rw [if_neg hnd]
    exact ⟨rfl, rfl⟩

theorem runExtract_missing_aborts_witness :
    ((3 : ℕ) ∈ ([(1, 10), (2, 20), (3, 30)] : List (ℕ × ℕ)).map Prod.fst) ∧
    ((3 : ℕ) ∉ ([(1, (5 : ℚ)), (2, 7)] : List (ℕ × ℚ)).map Prod.fst) ∧
    (runExtract [(1, 10), (2, 20), (3, 30)] [(1, (5 : ℚ)), (2, 7)] false 100).err.isSome = true ∧
    (runExtract [(1, 10), (2, 20), (3, 30)] [(1, (5 : ℚ)), (2, 7)] false 100).outFile = none := by
  refine ⟨by decide, by decide, ?_⟩
  exact runExtract_missing_aborts [(1, 10), (2, 20), (3, 30)] [(1, (5 : ℚ)), (2, 7)]
    100 3 (by decide) (by decide)

theorem mem_map_fst_filter_keyIn {γ : Type} {l : List (K × β)} {other : List (K × γ)}
    {k : K} :
    k ∈ (l.filter (fun r => keyIn r.1 other)).map Prod.fst ↔
      k ∈ l.map Prod.fst ∧ k ∈ other.map Prod.fst := by
  constructor
  · intro h
    obtain ⟨r, hrf, hk⟩ := List.mem_map.mp h
    obtain ⟨hrl, hpr⟩ := List.mem_filter.mp hrf
    exact ⟨hk ▸ List.mem_map_of_mem Prod.fst hrl, hk ▸ keyIn_iff.mp hpr⟩
  · rintro ⟨h1, h2⟩
    obtain ⟨r, hr, hk⟩ := List.mem_map.mp h1
    refine List.mem_map.mpr ⟨r, List.mem_filter.mpr ⟨hr, ?_⟩, hk⟩
    exact keyIn_iff.mpr (by rw [hk]; exact h2)

/-- Claim C5: if some user rows' canonical keys are absent from the
reference table and allow-missing is set (and both tables are free of
duplicate keys), the run succeeds: the main output holds exactly the
matched user rows (same number of rows as user rows whose key occurs in
the reference, with exactly the common keys) and the side missing file
holds exactly the user rows whose key is absent from the reference. -/
theorem runExtract_allow_missing (snps : List (K × α)) (meta : List (K × ℚ)) (q : ℕ)
    (hnds : (snps.map Prod.fst).Nodup) (hndm : (meta.map Prod.fst).Nodup)
    (k₀ : K) (hk₀s : k₀ ∈ snps.map Prod.fst) (hk₀m : k₀ ∉ meta.map Prod.fst) :
    (runExtract snps meta true q).err = none ∧
    (runExtract snps meta true q).missFile =
      some (snps.filter (fun s => !(keyIn s.1 meta))) ∧
    ∃ out, (runExtract snps meta true q).outFile = some out ∧
      out.length = (snps.filter (fun s => keyIn s.1 meta)).length ∧
      (∀ k, k ∈ out.map Prod.fst ↔
        (k ∈ snps.map Prod.fst ∧ k ∈ meta.map Prod.fst)) := by
  have hFnd : ((metaFiltered snps meta q).map Prod.fst).Nodup :=
    metaFiltered_fst_nodup hndm
  have hdfkeys : (mergedRows snps meta q).map Prod.fst =
      (metaFiltered snps meta q).map Prod.fst := mergedRows_fst hnds
  have hdfnd : ((mergedRows snps meta q).map Prod.fst).Nodup := by
    rw [hdfkeys]; exact hFnd
  have hlt := metaFiltered_length_lt hnds hFnd hk₀s hk₀m
  have hleq : (mergedRows snps meta q).length = (metaFiltered snps meta q).length :=
    mergedRows_length hnds
  have hlen : (mergedRows snps meta q).length < snps.length := by omega
  unfold runExtract
  rw [if_pos hnds, if_pos hlen, if_pos rfl, if_pos hdfnd]
  refine ⟨rfl, by rw [missingRows_eq], ⟨mergedRows snps meta q, rfl, ?_, ?_⟩⟩
  · have hmk_nd : ((snps.filter (fun s => keyIn s.1 meta)).map Prod.fst).Nodup :=
      hnds.sublist ((List.filter_sublist snps).map Prod.fst)
    have hmem1 : (metaFiltered snps meta q).map Prod.fst ⊆
        (snps.filter (fun s => keyIn s.1 meta)).map Prod.fst := by
      intro x hx
      obtain ⟨hm, hs⟩ := mem_metaFiltered_fst.mp hx
      exact mem_map_fst_filter_keyIn.mpr ⟨hs, hm⟩
    have hmem2 : (snps.filter (fun s => keyIn s.1 meta)).map Prod.fst ⊆
        (metaFiltered snps meta q).map Prod.fst := by
      intro x hx
      obtain ⟨hs, hm⟩ := mem_map_fst_filter_keyIn.mp hx
      exact mem_metaFiltered_fst.mpr ⟨hm, hs⟩
    have e1 := (hFnd.subperm hmem1).length_le
    have e2 := (hmk_nd.subperm hmem2).length_le
    rw [List.length_map, List.length_map] at e1 e2
    omega
  · intro k
    have : k ∈ (mergedRows snps meta q).map Prod.fst ↔
        k ∈ (metaFiltered snps meta q).map Prod.fst := by rw [hdfkeys]
    rw [this, mem_metaFiltered_fst]
    exact and_comm

theorem runExtract_allow_missing_witness :
    (([(1, 10), (2, 20), (3, 30)] : List (ℕ × ℕ)).map Prod.fst).Nodup ∧
    (([(1, (5 : ℚ)), (2, 7)] : List (ℕ × ℚ)).map Prod.fst).Nodup ∧
    ((3 : ℕ) ∈ ([(1, 10), (2, 20), (3, 30)] : List (ℕ × ℕ)).map Prod.fst) ∧
    ((3 : ℕ) ∉ ([(1, (5 : ℚ)), (2, 7)] : List (ℕ × ℚ)).map Prod.fst) ∧
    (runExtract [(1, 10), (2, 20), (3, 30)] [(1, (5 : ℚ)), (2, 7)] true 100).err = none := by
  refine ⟨by decide, by decide, by decide, by decide, ?_⟩
  exact (runExtract_allow_missing [(1, 10), (2, 20), (3, 30)] [(1, (5 : ℚ)), (2, 7)]
    100 (by decide) (by decide) 3 (by decide) (by decide)).1

/-- Claim C6 fails in its unconditional part: a duplicated canonical key
in the concatenated reference table is not a hard error when that key is
absent from the user table.  Here the reference holds key 2 twice, the
user table only key 1, and the run succeeds and writes the main
output. -/
theorem runExtract_duplicate_ref_key_cex :
    ¬ ((([(1, (1 : ℚ)), (2, 1), (2, 1)] : List (ℕ × ℚ)).map Prod.fst).Nodup) ∧
    (runExtract ([(1, 0)] : List (ℕ × ℕ)) [(1, (1 : ℚ)), (2, 1), (2, 1)] false 100).err
      = none ∧
    (runExtract ([(1, 0)] : List (ℕ × ℕ)) [(1, (1 : ℚ)), (2, 1), (2, 1)] false 100).outFile
      ≠ none := by
  refine ⟨by decide, by decide, by decide⟩

/-- Claim C6 amended: duplicate canonical keys within the user table are
a hard error (line 71-72), and a canonical key that occurs at least
twice in the concatenated reference table while being present in the
user table (all of whose keys match) makes the run fail with the
duplicate-key error of line 124-125; but a reference-table duplicate
whose key is absent from the user table is filtered away at line 104 and
raises no error. -/
theorem runExtract_duplicate_ref_key (snps : List (K × α)) (meta : List (K × ℚ))
    (am : Bool) (q : ℕ) (hnd : (snps.map Prod.fst).Nodup)
    (hall : ∀ k ∈ snps.map Prod.fst, k ∈ meta.map Prod.fst)
    (k₀ : K) (hk₀ : k₀ ∈ snps.map Prod.fst)
    (hdup : 2 ≤ (meta.map Prod.fst).countP (fun x => decide (x = k₀))) :
    (runExtract snps meta am q).err = some ExtractError.duplicateSNPs ∧
    (runExtract snps meta am q).outFile = none := by
  have hge : snps.length + 1 ≤ (metaFiltered snps meta q).length :=
    metaFiltered_length_ge hnd hall hk₀ hdup
  have hleq : (mergedRows snps meta q).length = (metaFiltered snps meta q).length :=
    mergedRows_length hnd
  have hnlt : ¬ (mergedRows snps meta q).length < snps.length := by omega
  have hR : (rescaleMeta meta q).countP (fun r => decide (r.1 = k₀)) =
      (meta.map Prod.fst).countP (fun x => decide (x = k₀)) := by
    conv_rhs => rw [← rescaleMeta_fst meta q, List.countP_map]
    rfl
  have hfil : (rescaleMeta meta q).countP (fun r => decide (r.1 = k₀)) ≤
      (metaFiltered snps meta q).countP (fun r => decide (r.1 = k₀)) := by
    unfold metaFiltered
    rw [List.countP_filter]
    apply List.countP_mono_left
    intro r hr hp
    have hrk : r.1 = k₀ := of_decide_eq_true hp
    rw [Bool.and_eq_true]
    exact ⟨hp, keyIn_iff.mpr (hrk ▸ hk₀)⟩
  have hFk : ((metaFiltered snps meta q).map Prod.fst).countP
      (fun x => decide (x = k₀)) =
      (metaFiltered snps meta q).countP (fun r => decide (r.1 = k₀)) := by
    rw [List.countP_map]
    rfl
  have hnodup : ¬ ((mergedRows snps meta q).map Prod.fst).Nodup := by
    intro hF
    rw [mergedRows_fst hnd] at hF
    have hone := nodup_countP_le_one _ hF k₀
    omega
  unfold runExtract
  rw [if_pos hnd, if_neg hnlt, if_neg hnodup]
  exact ⟨rfl, rfl⟩

theorem runExtract_duplicate_ref_key_witness :
    ((([(1, 10), (2, 20)] : List (ℕ × ℕ)).map Prod.fst).Nodup) ∧
    (∀ k ∈ ([(1, 10), (2, 20)] : List (ℕ × ℕ)).map Prod.fst,
      k ∈ ([(1, (1 : ℚ)), (2, 1), (2, 1)] : List (ℕ × ℚ)).map Prod.fst) ∧
    (2 ≤ (([(1, (1 : ℚ)), (2, 1), (2, 1)] : List (ℕ × ℚ)).map Prod.fst).countP
      (fun x => decide (x = 2))) ∧
    (runExtract ([(1, 10), (2, 20)] : List (ℕ × ℕ)) [(1, (1 : ℚ)), (2, 1), (2, 1)]
      false 100).err = some ExtractError.duplicateSNPs := by
  refine ⟨by decide, by decide, by decide, ?_⟩
  exact (runExtract_duplicate_ref_key [(1, 10), (2, 20)] [(1, (1 : ℚ)), (2, 1), (2, 1)]
    false 100 (by decide) (by decide) 2 (by decide) (by decide)).1
